import Mathlib

/-!
Shallow embedding of the `binary` package (binary search tree with a
polymorphic value contract).  Go's pointer-based nodes are modelled by an
inductive tree; the in-place mutation of node values and child pointers is
modelled by functional replacement; a nil pointer is the `nil` constructor.
Go's `interface{}` values are specialised to a single value type `V`; each
stored item carries its own comparison function and optional updater,
mirroring `InterfaceImpl` from interface.go.
-/

namespace Binary

/-- Model of `InterfaceImpl` (interface.go): a stored value together with its
comparison function and optional update function.  A `nil` Go `UpdateFunc`
is `none`. -/
structure InterfaceImpl (V : Type) where
  value : V
  comp : V → V → Int
  upd : Option (V → V → V)

/-- The sign normalisation performed by `InterfaceImpl.Compare` and
`Node.Compare`: anything less than zero becomes `LT = -1`, anything greater
than zero becomes `GT = 1`, else `EQ = 0`. -/
def signNorm (r : Int) : Int :=
  if r < 0 then -1 else if 0 < r then 1 else 0

/-- `InterfaceImpl.Compare` (interface.go): applies the comparison function
to the stored value and the probe, normalising the result to -1/0/1. -/
def InterfaceImpl.Compare {V : Type} (c : InterfaceImpl V) (probe : V) : Int :=
  signNorm (c.comp c.value probe)

/-- `InterfaceImpl.Update` (interface.go): a no-op when the updater is
absent, otherwise replaces the stored value by `upd value with`. -/
def InterfaceImpl.Update {V : Type} (c : InterfaceImpl V) (w : V) : InterfaceImpl V :=
  match c.upd with
  | none => c
  | some u => { c with value := u c.value w }

/-- `Generic` (interface.go): constructing an implementation without a
comparison function panics; the panic is modelled by `none`.  The updater
may be absent. -/
def Generic {V : Type} (value : V) (comparer : Option (V → V → Int))
    (updater : Option (V → V → V)) : Option (InterfaceImpl V) :=
  match comparer with
  | none => none
  | some c => some { value := value, comp := c, upd := updater }

/-- A tree node (`Node` in binary.go): a nil pointer or a node with left
child, stored interface value, and right child.  A `Tree` is identified
with its root pointer. -/
inductive Node (V : Type) where
  | nil : Node V
  | node (left : Node V) (value : InterfaceImpl V) (right : Node V) : Node V

/-- `Node.Compare`: normalises the stored interface's comparison once more
(the argument is the node's stored interface). -/
def nodeCompare {V : Type} (i : InterfaceImpl V) (probe : V) : Int :=
  signNorm (i.Compare probe)

/-- A visitor, modelling Go's `VisitorFunc` closures: visitor state of type
`σ` is threaded explicitly, and the boolean is the Done/Continue signal
(`Done = true`, `Continue = false`). -/
def VisitorFunc (σ V : Type) : Type := σ → V → σ × Bool

/-- `visitInOrder` (binary.go): left subtree, node value, right subtree,
stopping as soon as the visitor returns `Done`. -/
def visitInOrder {σ V : Type} (with_ : VisitorFunc σ V) : Node V → σ → σ × Bool
  | .nil, s => (s, false)
  | .node l v r, s =>
    match visitInOrder with_ l s with
    | (s1, true) => (s1, true)
    | (s1, false) =>
      match with_ s1 v.value with
      | (s2, true) => (s2, true)
      | (s2, false) => visitInOrder with_ r s2

/-- `visitInReverse` (binary.go), exactly as written in the source: it
recurses into both subtrees with `visitInOrder`, not with itself. -/
def visitInReverse {σ V : Type} (with_ : VisitorFunc σ V) : Node V → σ → σ × Bool
  | .nil, s => (s, false)
  | .node l v r, s =>
    match visitInOrder with_ r s with
    | (s1, true) => (s1, true)
    | (s1, false) =>
      match with_ s1 v.value with
      | (s2, true) => (s2, true)
      | (s2, false) => visitInOrder with_ l s2

/-- `Contains` (binary.go): iterative binary-search walk directed by the
probe's `Compare` against each node's stored value. -/
def Contains {V : Type} (item : InterfaceImpl V) : Node V → Bool
  | .nil => false
  | .node l v r =>
    let result := item.Compare v.value
    if result < 0 then Contains item l
    else if 0 < result then Contains item r
    else true

/-- `findNodeAndParent` (binary.go): same walk as `Contains`, additionally
returning the found node's interface and the last visited parent's
interface. -/
def findNodeAndParent {V : Type} (item : InterfaceImpl V) :
    Node V → Option (InterfaceImpl V) →
    Bool × Option (InterfaceImpl V) × Option (InterfaceImpl V)
  | .nil, parent => (false, none, parent)
  | .node l v r, parent =>
    let result := item.Compare v.value
    if result < 0 then findNodeAndParent item l (some v)
    else if 0 < result then findNodeAndParent item r (some v)
    else (true, some v, parent)

/-- `Get` (binary.go): returns the found node's stored value, or absent. -/
def Get {V : Type} (item : InterfaceImpl V) (t : Node V) : Option V :=
  match findNodeAndParent item t none with
  | (true, some i, _) => some i.value
  | _ => none

/-- The successor walk inside `removeNode`: starting from a non-nil subtree
(given as left child, value, right child), walk left children to the
leftmost node; return its interface value and the subtree with that
leftmost node spliced out (replaced by its right child). -/
def spliceLeftmost {V : Type} :
    Node V → InterfaceImpl V → Node V → InterfaceImpl V × Node V
  | .nil, v, r => (v, r)
  | .node ll lv lr, v, r =>
    let p := spliceLeftmost ll lv lr
    (p.1, .node p.2 v r)

/-- `removeNode` (binary.go), applied at the located node: a node with two
children has its value replaced by its in-order successor (the leftmost
node of its right subtree) and the successor spliced out; a node with at
most one child is replaced by its only subtree. -/
def removeNode {V : Type} : Node V → Node V
  | .nil => .nil
  | .node .nil _ r => r
  | .node (.node ll lv lr) _ .nil => .node ll lv lr
  | .node (.node ll lv lr) _ (.node rl rv rr) =>
    let p := spliceLeftmost rl rv rr
    .node (.node ll lv lr) p.1 p.2

/-- `Remove` (binary.go): locate the item by the probe's comparison walk and
apply `removeNode` there; a silent no-op when the item is absent. -/
def Remove {V : Type} (item : InterfaceImpl V) : Node V → Node V
  | .nil => .nil
  | .node l v r =>
    let result := item.Compare v.value
    if result < 0 then .node (Remove item l) v r
    else if 0 < result then .node l v (Remove item r)
    else removeNode (.node l v r)

/-- Number of nodes of a tree. -/
def size {V : Type} : Node V → Nat
  | .nil => 0
  | .node l _ r => size l + size r + 1

/-- One pass of `Insert` (binary.go) without the re-insertion recursion:
walk to the item's position; if not found, attach a new node (left child
when the item compares `LT` against the parent, right child otherwise,
root of an empty tree); if found, call `Update` on the node with the item's
value, and when the updated value no longer compares `EQ` to its pre-update
value, apply `removeNode` at that node and report the interface that the
source then re-inserts from the root (`t.Insert(cur)`): the updated
interface when the node had at most one child, the successor's interface
(which overwrote the node's value inside `removeNode`) when it had two. -/
def insertStep {V : Type} (item : InterfaceImpl V) :
    Node V → Node V × Option (InterfaceImpl V)
  | .nil => (.node .nil item .nil, none)
  | .node l v r =>
    let result := item.Compare v.value
    if result < 0 then
      let p := insertStep item l
      (.node p.1 v r, p.2)
    else if 0 < result then
      let p := insertStep item r
      (.node l v p.1, p.2)
    else
      let before := v.value
      let v' := v.Update item.value
      if nodeCompare v' before ≠ 0 then
        match l, r with
        | .nil, _ => (r, some v')
        | .node ll lv lr, .nil => (.node ll lv lr, some v')
        | .node ll lv lr, .node rl rv rr =>
          let p := spliceLeftmost rl rv rr
          (.node (.node ll lv lr) p.1 p.2, some p.1)
      else
        (.node l v' r, none)

/-- The re-insertion recursion of `Insert`: every recursive `t.Insert(cur)`
call is preceded by a `removeNode`, so the tree shrinks at each round and
`size t + 1` rounds always suffice; the fuel makes that termination
explicit. -/
def insertLoop {V : Type} : Nat → InterfaceImpl V → Node V → Node V
  | 0, _, t => t
  | fuel + 1, item, t =>
    match insertStep item t with
    | (t', none) => t'
    | (t', some re) => insertLoop fuel re t'

/-- `Insert` (binary.go). -/
def Insert {V : Type} (item : InterfaceImpl V) (t : Node V) : Node V :=
  insertLoop (size t + 1) item t

/-- A visitor collecting the visited values in order. -/
def collectStep {V : Type} : VisitorFunc (List V) V :=
  fun acc v => (acc ++ [v], false)

/-- The sequence of values visited by `VisitInOrder` with a never-Done
visitor. -/
def inorderVisited {V : Type} (t : Node V) : List V :=
  (visitInOrder collectStep t []).1

/-- The sequence of values visited by `VisitInReverse` with a never-Done
visitor. -/
def reverseVisited {V : Type} (t : Node V) : List V :=
  (visitInReverse collectStep t []).1

/-- The stored interfaces in left-value-right order. -/
def inorderImpls {V : Type} : Node V → List (InterfaceImpl V)
  | .nil => []
  | .node l v r => inorderImpls l ++ v :: inorderImpls r

/-- The stored raw values in left-value-right order. -/
def toVals {V : Type} : Node V → List V
  | .nil => []
  | .node l v r => toVals l ++ v.value :: toVals r

/-! ### Basic facts about sign normalisation -/

theorem signNorm_neg {r : Int} (h : r < 0) : signNorm r = -1 := by
  simp [signNorm, h]

theorem signNorm_pos {r : Int} (h : 0 < r) : signNorm r = 1 := by
  have h' : ¬ r < 0 := by omega
  simp [signNorm, h, h']

theorem signNorm_zero : signNorm 0 = 0 := by
  simp [signNorm]

theorem signNorm_lt_iff {r : Int} : signNorm r < 0 ↔ r < 0 := by
  unfold signNorm
  split <;> rename_i h1
  · simp [h1]
  · split <;> omega

theorem signNorm_pos_iff {r : Int} : 0 < signNorm r ↔ 0 < r := by
  unfold signNorm
  split <;> rename_i h1
  · omega
  · split <;> omega

theorem signNorm_eq_zero_iff {r : Int} : signNorm r = 0 ↔ r = 0 := by
  unfold signNorm
  split <;> rename_i h1
  · omega
  · split <;> omega

theorem signNorm_signNorm (r : Int) : signNorm (signNorm r) = signNorm r := by
  unfold signNorm
  split <;> rename_i h1
  · simp
  · split <;> simp

theorem nodeCompare_eq_Compare {V : Type} (i : InterfaceImpl V) (x : V) :
    nodeCompare i x = i.Compare x := by
  unfold nodeCompare InterfaceImpl.Compare
  exact signNorm_signNorm _

/-! ### Traversal with a never-Done collector -/

theorem visitInOrder_collect {V : Type} (t : Node V) :
    ∀ acc : List V, visitInOrder collectStep t acc = (acc ++ toVals t, false) := by
  induction t with
  | nil => intro acc; simp [visitInOrder, toVals]
  | node l v r ihl ihr =>
    intro acc
    simp only [visitInOrder, ihl, ihr, collectStep, toVals]
    simp

theorem inorderVisited_eq_toVals {V : Type} (t : Node V) :
    inorderVisited t = toVals t := by
  simp [inorderVisited, visitInOrder_collect]

theorem visitInReverse_collect {V : Type} (l : Node V) (v : InterfaceImpl V)
    (r : Node V) (acc : List V) :
    visitInReverse collectStep (.node l v r) acc =
      (acc ++ toVals r ++ v.value :: toVals l, false) := by
  simp only [visitInReverse, visitInOrder_collect, collectStep]
  simp

theorem reverseVisited_node {V : Type} (l : Node V) (v : InterfaceImpl V) (r : Node V) :
    reverseVisited (.node l v r) = toVals r ++ v.value :: toVals l := by
  simp [reverseVisited, visitInReverse_collect]

/-! ### Early exit: an instrumented visitor counting its invocations -/

/-- Wraps a visitor, counting how many times it is invoked. -/
def instr {σ V : Type} (g : σ → V → σ × Bool) : VisitorFunc (σ × Nat) V :=
  fun p v => (((g p.1 v).1, p.2 + 1), (g p.1 v).2)

theorem visitInOrder_done {σ V : Type} {g : σ → V → σ × Bool}
    (hg : ∀ s v, (g s v).2 = true) :
    ∀ t : Node V, t ≠ .nil → ∀ s n,
      ∃ s', visitInOrder (instr g) t (s, n) = ((s', n + 1), true) := by
  intro t
  induction t with
  | nil => intro h; exact absurd rfl h
  | node l v r ihl ihr =>
    intro _ s n
    cases l with
    | nil =>
      refine ⟨(g s v.value).1, ?_⟩
      simp only [visitInOrder, instr, hg s v.value]
    | node a b c =>
      obtain ⟨s', h'⟩ := ihl (fun h => Node.noConfusion h) s n
      refine ⟨s', ?_⟩
      simp only [visitInOrder] at h' ⊢
      rw [h']

theorem visitInReverse_done {σ V : Type} {g : σ → V → σ × Bool}
    (hg : ∀ s v, (g s v).2 = true) :
    ∀ t : Node V, t ≠ .nil → ∀ s n,
      ∃ s', visitInReverse (instr g) t (s, n) = ((s', n + 1), true) := by
  intro t
  cases t with
  | nil => intro h; exact absurd rfl h
  | node l v r =>
    intro _ s n
    cases r with
    | nil =>
      refine ⟨(g s v.value).1, ?_⟩
      simp only [visitInReverse, visitInOrder, instr, hg s v.value]
    | node a b c =>
      obtain ⟨s', h'⟩ := visitInOrder_done hg (.node a b c) (fun h => Node.noConfusion h) s n
      refine ⟨s', ?_⟩
      simp only [visitInReverse]
      rw [h']

/-! ### The search walk -/

theorem findNodeAndParent_found_eq_Contains {V : Type} (item : InterfaceImpl V) :
    ∀ (t : Node V) (p : Option (InterfaceImpl V)),
      (findNodeAndParent item t p).1 = Contains item t := by
  intro t
  induction t with
  | nil => intro p; rfl
  | node l v r ihl ihr =>
    intro p
    simp only [findNodeAndParent, Contains]
    split
    · exact ihl _
    · split
      · exact ihr _
      · rfl

theorem findNodeAndParent_found_isSome {V : Type} (item : InterfaceImpl V) :
    ∀ (t : Node V) (p : Option (InterfaceImpl V)),
      (findNodeAndParent item t p).1 = true →
      ((findNodeAndParent item t p).2.1).isSome = true := by
  intro t
  induction t with
  | nil => intro p h; simp [findNodeAndParent] at h
  | node l v r ihl ihr =>
    intro p
    simp only [findNodeAndParent]
    split
    · exact ihl _
    · split
      · exact ihr _
      · intro _; rfl

theorem Contains_false_Remove {V : Type} (item : InterfaceImpl V) :
    ∀ t : Node V, Contains item t = false → Remove item t = t := by
  intro t
  induction t with
  | nil => intro _; rfl
  | node l v r ihl ihr =>
    intro h
    simp only [Contains] at h
    simp only [Remove]
    split <;> rename_i h1
    · rw [ihl (by simpa [h1] using h)]
    · split <;> rename_i h2
      · rw [ihr (by simpa [h1, h2] using h)]
      · simp [h1, h2] at h

theorem Contains_false_Get {V : Type} (item : InterfaceImpl V) (t : Node V)
    (h : Contains item t = false) : Get item t = none := by
  have hf := findNodeAndParent_found_eq_Contains item t none
  rw [h] at hf
  unfold Get
  rcases hfind : findNodeAndParent item t none with ⟨fd, nd, pr⟩
  rw [hfind] at hf
  simp at hf
  subst hf
  cases nd <;> rfl

/-! ### Consistent comparators and the BST invariant -/

/-- The comparison function induced by a linear order: the implementation
all convenience wrappers (String, Int) of the source follow. -/
def cmpOf {V : Type} [LinearOrder V] (a b : V) : Int :=
  if a < b then -1 else if b < a then 1 else 0

/-- Every stored raw value satisfies `p`. -/
def AllV {V : Type} (p : V → Prop) : Node V → Prop
  | .nil => True
  | .node l v r => AllV p l ∧ p v.value ∧ AllV p r

/-- Every stored interface uses the order-induced comparison function. -/
def AllCmp {V : Type} [LinearOrder V] : Node V → Prop
  | .nil => True
  | .node l v r => AllCmp l ∧ v.comp = cmpOf ∧ AllCmp r

/-- The strict BST invariant: left subtree values are smaller, right
subtree values are larger, recursively. -/
def isBST {V : Type} [LinearOrder V] : Node V → Prop
  | .nil => True
  | .node l v r =>
      isBST l ∧ isBST r ∧ AllV (fun y => y < v.value) l ∧ AllV (fun y => v.value < y) r

theorem cmpOf_neg_iff {V : Type} [LinearOrder V] {a b : V} : cmpOf a b < 0 ↔ a < b := by
  unfold cmpOf
  rcases lt_trichotomy a b with h | h | h
  · simp [h]
  · subst h; simp
  · simp [lt_asymm h, h]

theorem cmpOf_pos_iff {V : Type} [LinearOrder V] {a b : V} : 0 < cmpOf a b ↔ b < a := by
  unfold cmpOf
  rcases lt_trichotomy a b with h | h | h
  · simp [h, lt_asymm h]
  · subst h; simp
  · simp [lt_asymm h, h]

theorem cmpOf_eq_zero_iff {V : Type} [LinearOrder V] {a b : V} : cmpOf a b = 0 ↔ a = b := by
  unfold cmpOf
  rcases lt_trichotomy a b with h | h | h
  · simp [h]; exact fun hab => absurd hab (ne_of_lt h)
  · subst h; simp
  · simp [lt_asymm h, h]; exact fun hab => absurd hab (ne_of_gt h)

theorem signNorm_cmpOf {V : Type} [LinearOrder V] (a b : V) :
    signNorm (cmpOf a b) = cmpOf a b := by
  unfold cmpOf
  rcases lt_trichotomy a b with h | h | h
  · simp only [h, if_true]
    rfl
  · subst h
    simp [signNorm]
  · simp only [lt_asymm h, if_false, h, if_true]
    rfl

theorem Compare_cmpOf {V : Type} [LinearOrder V] {i : InterfaceImpl V}
    (h : i.comp = cmpOf) (x : V) : i.Compare x = cmpOf i.value x := by
  unfold InterfaceImpl.Compare
  rw [h, signNorm_cmpOf]

theorem Update_comp {V : Type} (i : InterfaceImpl V) (w : V) :
    (i.Update w).comp = i.comp := by
  unfold InterfaceImpl.Update
  cases i.upd <;> rfl

theorem AllV_iff_mem {V : Type} (p : V → Prop) :
    ∀ t : Node V, AllV p t ↔ ∀ y ∈ toVals t, p y := by
  intro t
  induction t with
  | nil => simp [AllV, toVals]
  | node l v r ihl ihr =>
    simp only [AllV, toVals, ihl, ihr, List.mem_append, List.mem_cons]
    constructor
    · rintro ⟨h1, h2, h3⟩ y (hy | hy | hy)
      · exact h1 y hy
      · exact hy ▸ h2
      · exact h3 y hy
    · intro h
      exact ⟨fun y hy => h y (Or.inl hy), h v.value (Or.inr (Or.inl rfl)),
        fun y hy => h y (Or.inr (Or.inr hy))⟩

theorem sorted_toVals {V : Type} [LinearOrder V] :
    ∀ t : Node V, isBST t → (toVals t).Sorted (· < ·) := by
  intro t
  induction t with
  | nil => intro _; simp [toVals]
  | node l v r ihl ihr =>
    rintro ⟨hbl, hbr, hvl, hvr⟩
    rw [AllV_iff_mem] at hvl hvr
    simp only [toVals, List.Sorted, List.pairwise_append, List.pairwise_cons]
    refine ⟨ihl hbl, ⟨hvr, ihr hbr⟩, ?_⟩
    intro a ha b hb
    rcases List.mem_cons.1 hb with hb | hb
    · exact hb ▸ hvl a ha
    · exact lt_trans (hvl a ha) (hvr b hb)

/-! ### Successor splice and removal -/

theorem spliceLeftmost_toVals {V : Type} :
    ∀ (l : Node V) (v : InterfaceImpl V) (r : Node V),
      (spliceLeftmost l v r).1.value :: toVals (spliceLeftmost l v r).2 =
        toVals (.node l v r) := by
  intro l
  induction l with
  | nil => intro v r; simp [spliceLeftmost, toVals]
  | node ll lv lr ihl ihr =>
    intro v r
    simp only [spliceLeftmost, toVals]
    rw [← List.cons_append, ihl lv lr]
    simp [toVals]

theorem spliceLeftmost_comp {V : Type} [LinearOrder V] :
    ∀ (l : Node V) (v : InterfaceImpl V) (r : Node V), AllCmp (Node.node l v r) →
      (spliceLeftmost l v r).1.comp = cmpOf ∧ AllCmp (spliceLeftmost l v r).2 := by
  intro l
  induction l with
  | nil =>
    rintro v r ⟨_, hv, hr⟩
    exact ⟨hv, hr⟩
  | node ll lv lr ihl ihr =>
    rintro v r ⟨⟨hll, hlv, hlr⟩, hv, hr⟩
    obtain ⟨h1, h2⟩ := ihl lv lr ⟨hll, hlv, hlr⟩
    exact ⟨h1, h2, hv, hr⟩

theorem spliceLeftmost_isBST {V : Type} [LinearOrder V] :
    ∀ (l : Node V) (v : InterfaceImpl V) (r : Node V), isBST (Node.node l v r) →
      isBST (spliceLeftmost l v r).2 := by
  intro l
  induction l with
  | nil =>
    rintro v r ⟨_, hbr, _, _⟩
    exact hbr
  | node ll lv lr ihl ihr =>
    rintro v r ⟨hbl, hbr, hvl, hvr⟩
    refine ⟨ihl lv lr hbl, hbr, ?_, hvr⟩
    rw [AllV_iff_mem] at hvl ⊢
    intro y hy
    apply hvl
    rw [← spliceLeftmost_toVals ll lv lr]
    exact List.mem_cons_of_mem _ hy

theorem spliceLeftmost_min {V : Type} [LinearOrder V]
    (l : Node V) (v : InterfaceImpl V) (r : Node V) (h : isBST (Node.node l v r)) :
    AllV (fun y => (spliceLeftmost l v r).1.value < y) (spliceLeftmost l v r).2 := by
  have hs := sorted_toVals _ h
  rw [← spliceLeftmost_toVals l v r] at hs
  rw [AllV_iff_mem]
  intro y hy
  exact (List.pairwise_cons.1 hs).1 y hy

theorem removeNode_toVals {V : Type} (l : Node V) (v : InterfaceImpl V) (r : Node V) :
    toVals (removeNode (.node l v r)) = toVals l ++ toVals r := by
  cases l with
  | nil => cases r <;> simp [removeNode, toVals]
  | node ll lv lr =>
    cases r with
    | nil => simp [removeNode, toVals]
    | node rl rv rr =>
      have h := spliceLeftmost_toVals rl rv rr
      simp only [toVals] at h
      simp only [removeNode, toVals, h]

theorem removeNode_isBST {V : Type} [LinearOrder V] (l : Node V) (v : InterfaceImpl V)
    (r : Node V) (h : isBST (Node.node l v r)) : isBST (removeNode (.node l v r)) := by
  cases l with
  | nil =>
    obtain ⟨hbl, hbr, hvl, hvr⟩ := h
    cases r <;> exact hbr
  | node ll lv lr =>
    cases r with
    | nil => exact h.1
    | node rl rv rr =>
      obtain ⟨hbl, hbr, hvl, hvr⟩ := h
      have hmem : (spliceLeftmost rl rv rr).1.value ∈ toVals (Node.node rl rv rr) := by
        rw [← spliceLeftmost_toVals rl rv rr]
        exact List.mem_cons_self _ _
      have hvm : v.value < (spliceLeftmost rl rv rr).1.value :=
        (AllV_iff_mem _ _).1 hvr _ hmem
      refine ⟨hbl, spliceLeftmost_isBST rl rv rr hbr, ?_, spliceLeftmost_min rl rv rr hbr⟩
      rw [AllV_iff_mem] at hvl ⊢
      intro y hy
      exact lt_trans (hvl y hy) hvm

theorem removeNode_AllCmp {V : Type} [LinearOrder V] (l : Node V) (v : InterfaceImpl V)
    (r : Node V) (h : AllCmp (Node.node l v r)) : AllCmp (removeNode (.node l v r)) := by
  cases l with
  | nil =>
    obtain ⟨hcl, hcv, hcr⟩ := h
    cases r <;> exact hcr
  | node ll lv lr =>
    cases r with
    | nil => exact h.1
    | node rl rv rr =>
      obtain ⟨hcl, hcv, hcr⟩ := h
      obtain ⟨h1, h2⟩ := spliceLeftmost_comp rl rv rr hcr
      exact ⟨hcl, h1, h2⟩

/-! ### Remove preserves the invariants and removes exactly the probe -/

theorem Remove_toVals_subset {V : Type} (item : InterfaceImpl V) :
    ∀ t : Node V, ∀ y ∈ toVals (Remove item t), y ∈ toVals t := by
  intro t
  induction t with
  | nil => intro y hy; simp [Remove, toVals] at hy
  | node l v r ihl ihr =>
    intro y hy
    simp only [Remove] at hy
    split at hy
    · simp only [toVals, List.mem_append, List.mem_cons] at hy ⊢
      rcases hy with hy | hy
      · exact Or.inl (ihl y hy)
      · exact Or.inr hy
    · split at hy
      · simp only [toVals, List.mem_append, List.mem_cons] at hy ⊢
        rcases hy with hy | hy | hy
        · exact Or.inl hy
        · exact Or.inr (Or.inl hy)
        · exact Or.inr (Or.inr (ihr y hy))
      · rw [removeNode_toVals] at hy
        simp only [toVals, List.mem_append, List.mem_cons] at hy ⊢
        rcases hy with hy | hy
        · exact Or.inl hy
        · exact Or.inr (Or.inr hy)

theorem Remove_isBST {V : Type} [LinearOrder V] (item : InterfaceImpl V) :
    ∀ t : Node V, isBST t → isBST (Remove item t) := by
  intro t
  induction t with
  | nil => intro _; trivial
  | node l v r ihl ihr =>
    rintro ⟨hbl, hbr, hvl, hvr⟩
    simp only [Remove]
    split
    · refine ⟨ihl hbl, hbr, ?_, hvr⟩
      rw [AllV_iff_mem] at hvl ⊢
      exact fun y hy => hvl y (Remove_toVals_subset item l y hy)
    · split
      · refine ⟨hbl, ihr hbr, hvl, ?_⟩
        rw [AllV_iff_mem] at hvr ⊢
        exact fun y hy => hvr y (Remove_toVals_subset item r y hy)
      · exact removeNode_isBST l v r ⟨hbl, hbr, hvl, hvr⟩

theorem Remove_AllCmp {V : Type} [LinearOrder V] (item : InterfaceImpl V) :
    ∀ t : Node V, AllCmp t → AllCmp (Remove item t) := by
  intro t
  induction t with
  | nil => intro _; trivial
  | node l v r ihl ihr =>
    rintro ⟨hcl, hcv, hcr⟩
    simp only [Remove]
    split
    · exact ⟨ihl hcl, hcv, hcr⟩
    · split
      · exact ⟨hcl, hcv, ihr hcr⟩
      · exact removeNode_AllCmp l v r ⟨hcl, hcv, hcr⟩

theorem Remove_not_mem {V : Type} [LinearOrder V] {item : InterfaceImpl V}
    (hi : item.comp = cmpOf) :
    ∀ t : Node V, isBST t → item.value ∉ toVals (Remove item t) := by
  intro t
  induction t with
  | nil => intro _; simp [Remove, toVals]
  | node l v r ihl ihr =>
    rintro ⟨hbl, hbr, hvl, hvr⟩
    simp only [Remove, Compare_cmpOf hi]
    split <;> rename_i h1
    · rw [cmpOf_neg_iff] at h1
      simp only [toVals, List.mem_append, List.mem_cons]
      rw [AllV_iff_mem] at hvr
      rintro (hy | hy | hy)
      · exact ihl hbl hy
      · exact absurd hy (ne_of_lt h1)
      · exact absurd (lt_trans h1 (hvr _ hy)) (lt_irrefl _)
    · split <;> rename_i h2
      · rw [cmpOf_pos_iff] at h2
        simp only [toVals, List.mem_append, List.mem_cons]
        rw [AllV_iff_mem] at hvl
        rintro (hy | hy | hy)
        · exact absurd (lt_trans (hvl _ hy) h2) (lt_irrefl _)
        · exact absurd hy (ne_of_gt h2)
        · exact ihr hbr hy
      · have heq : item.value = v.value := by
          rw [cmpOf_neg_iff] at h1
          rw [cmpOf_pos_iff] at h2
          exact le_antisymm (not_lt.1 h2) (not_lt.1 h1)
        rw [removeNode_toVals]
        simp only [List.mem_append]
        rw [AllV_iff_mem] at hvl hvr
        rintro (hy | hy)
        · exact absurd (heq ▸ hvl _ hy) (lt_irrefl _)
        · exact absurd (heq ▸ hvr _ hy) (lt_irrefl _)

theorem Remove_mem_iff {V : Type} [LinearOrder V] {item : InterfaceImpl V}
    (hi : item.comp = cmpOf) :
    ∀ t : Node V, isBST t → ∀ y, y ≠ item.value →
      (y ∈ toVals (Remove item t) ↔ y ∈ toVals t) := by
  intro t
  induction t with
  | nil => intro _ y _; simp [Remove]
  | node l v r ihl ihr =>
    rintro ⟨hbl, hbr, hvl, hvr⟩ y hy
    simp only [Remove, Compare_cmpOf hi]
    split <;> rename_i h1
    · simp only [toVals, List.mem_append, List.mem_cons, ihl hbl y hy]
    · split <;> rename_i h2
      · simp only [toVals, List.mem_append, List.mem_cons, ihr hbr y hy]
      · have heq : item.value = v.value := by
          rw [cmpOf_neg_iff] at h1
          rw [cmpOf_pos_iff] at h2
          exact le_antisymm (not_lt.1 h2) (not_lt.1 h1)
        rw [removeNode_toVals]
        simp only [toVals, List.mem_append, List.mem_cons]
        constructor
        · rintro (h | h)
          · exact Or.inl h
          · exact Or.inr (Or.inr h)
        · rintro (h | h | h)
          · exact Or.inl h
          · exact absurd (h.trans heq.symm) hy
          · exact Or.inr h

theorem Contains_iff_mem {V : Type} [LinearOrder V] {item : InterfaceImpl V}
    (hi : item.comp = cmpOf) :
    ∀ t : Node V, isBST t → (Contains item t = true ↔ item.value ∈ toVals t) := by
  intro t
  induction t with
  | nil => intro _; simp [Contains, toVals]
  | node l v r ihl ihr =>
    rintro ⟨hbl, hbr, hvl, hvr⟩
    simp only [Contains, Compare_cmpOf hi]
    split <;> rename_i h1
    · rw [cmpOf_neg_iff] at h1
      rw [ihl hbl]
      simp only [toVals, List.mem_append, List.mem_cons]
      rw [AllV_iff_mem] at hvr
      constructor
      · exact Or.inl
      · rintro (h | h | h)
        · exact h
        · exact absurd h (ne_of_lt h1)
        · exact absurd (lt_trans h1 (hvr _ h)) (lt_irrefl _)
    · split <;> rename_i h2
      · rw [cmpOf_pos_iff] at h2
        rw [ihr hbr]
        simp only [toVals, List.mem_append, List.mem_cons]
        rw [AllV_iff_mem] at hvl
        constructor
        · exact fun h => Or.inr (Or.inr h)
        · rintro (h | h | h)
          · exact absurd (lt_trans (hvl _ h) h2) (lt_irrefl _)
          · exact absurd h (ne_of_gt h2)
          · exact h
      · have heq : item.value = v.value := by
          rw [cmpOf_neg_iff] at h1
          rw [cmpOf_pos_iff] at h2
          exact le_antisymm (not_lt.1 h2) (not_lt.1 h1)
        simp only [toVals, List.mem_append, List.mem_cons, heq]
        simp

/-! ### Insert preserves the invariants -/

theorem insertStep_spec {V : Type} [LinearOrder V] {item : InterfaceImpl V}
    (hi : item.comp = cmpOf) :
    ∀ t : Node V, isBST t → AllCmp t →
      isBST (insertStep item t).1 ∧ AllCmp (insertStep item t).1 ∧
      (∀ j : InterfaceImpl V, (insertStep item t).2 = some j → j.comp = cmpOf) ∧
      (∀ y ∈ toVals (insertStep item t).1, y ∈ toVals t ∨ y = item.value) := by
  intro t
  induction t with
  | nil =>
    intro _ _
    refine ⟨⟨trivial, trivial, trivial, trivial⟩, ⟨trivial, hi, trivial⟩, ?_, ?_⟩
    · intro j hj
      simp [insertStep] at hj
    · intro y hy
      simp [insertStep, toVals] at hy
      exact Or.inr hy
  | node l v r ihl ihr =>
    intro hb hc
    simp only [insertStep, Compare_cmpOf hi]
    by_cases h1 : cmpOf item.value v.value < 0
    · rw [if_pos h1]
      rw [cmpOf_neg_iff] at h1
      obtain ⟨hbl, hbr, hvl, hvr⟩ := hb
      obtain ⟨hcl, hcv, hcr⟩ := hc
      obtain ⟨ib, ic, ire, isub⟩ := ihl hbl hcl
      refine ⟨⟨ib, hbr, ?_, hvr⟩, ⟨ic, hcv, hcr⟩, ire, ?_⟩
      · rw [AllV_iff_mem] at hvl ⊢
        intro y hy
        rcases isub y hy with h | h
        · exact hvl y h
        · exact h ▸ h1
      · intro y hy
        simp only [toVals, List.mem_append, List.mem_cons] at hy ⊢
        rcases hy with hy | hy
        · rcases isub y hy with h | h
          · exact Or.inl (Or.inl h)
          · exact Or.inr h
        · exact Or.inl (Or.inr hy)
    · rw [if_neg h1]
      by_cases h2 : 0 < cmpOf item.value v.value
      · rw [if_pos h2]
        rw [cmpOf_pos_iff] at h2
        obtain ⟨hbl, hbr, hvl, hvr⟩ := hb
        obtain ⟨hcl, hcv, hcr⟩ := hc
        obtain ⟨ib, ic, ire, isub⟩ := ihr hbr hcr
        refine ⟨⟨hbl, ib, hvl, ?_⟩, ⟨hcl, hcv, ic⟩, ire, ?_⟩
        · rw [AllV_iff_mem] at hvr ⊢
          intro y hy
          rcases isub y hy with h | h
          · exact hvr y h
          · exact h ▸ h2
        · intro y hy
          simp only [toVals, List.mem_append, List.mem_cons] at hy ⊢
          rcases hy with hy | hy | hy
          · exact Or.inl (Or.inl hy)
          · exact Or.inl (Or.inr (Or.inl hy))
          · rcases isub y hy with h | h
            · exact Or.inl (Or.inr (Or.inr h))
            · exact Or.inr h
      · rw [if_neg h2]
        have heq : item.value = v.value := by
          rw [cmpOf_neg_iff] at h1
          rw [cmpOf_pos_iff] at h2
          exact le_antisymm (not_lt.1 h2) (not_lt.1 h1)
        have hcv' : (v.Update item.value).comp = cmpOf := by
          rw [Update_comp]
          exact hc.2.1
        have hnc : nodeCompare (v.Update item.value) v.value =
            cmpOf (v.Update item.value).value v.value := by
          rw [nodeCompare_eq_Compare, Compare_cmpOf hcv']
        rw [hnc]
        by_cases hch : cmpOf (v.Update item.value).value v.value = 0
        · rw [if_neg (not_not_intro hch)]
          have hveq : (v.Update item.value).value = v.value := cmpOf_eq_zero_iff.1 hch
          obtain ⟨hbl, hbr, hvl, hvr⟩ := hb
          obtain ⟨hcl, hcv, hcr⟩ := hc
          refine ⟨⟨hbl, hbr, ?_, ?_⟩, ⟨hcl, hcv', hcr⟩, ?_, ?_⟩
          · rw [hveq]; exact hvl
          · rw [hveq]; exact hvr
          · intro j hj
            simp at hj
          · intro y hy
            simp only [toVals, List.mem_append, List.mem_cons, hveq] at hy ⊢
            exact Or.inl hy
        · rw [if_pos hch]
          cases l with
          | nil =>
            cases r with
            | nil =>
              refine ⟨trivial, trivial, ?_, ?_⟩
              · intro j hj
                simp at hj
                rw [← hj]
                exact hcv'
              · intro y hy
                simp [toVals] at hy
            | node rl rv rr =>
              refine ⟨hb.2.1, hc.2.2, ?_, ?_⟩
              · intro j hj
                simp at hj
                rw [← hj]
                exact hcv'
              · intro y hy
                simp only [toVals, List.mem_append, List.mem_cons] at hy ⊢
                tauto
          | node ll lv lr =>
            cases r with
            | nil =>
              refine ⟨hb.1, hc.1, ?_, ?_⟩
              · intro j hj
                simp at hj
                rw [← hj]
                exact hcv'
              · intro y hy
                simp only [toVals, List.mem_append, List.mem_cons] at hy ⊢
                exact Or.inl (Or.inl hy)
            | node rl rv rr =>
              have hsp := spliceLeftmost_toVals rl rv rr
              refine ⟨?_, ?_, ?_, ?_⟩
              · exact removeNode_isBST (Node.node ll lv lr) v (Node.node rl rv rr) hb
              · exact removeNode_AllCmp (Node.node ll lv lr) v (Node.node rl rv rr) hc
              · intro j hj
                simp at hj
                rw [← hj]
                exact (spliceLeftmost_comp rl rv rr hc.2.2).1
              · intro y hy
                left
                have hrn : y ∈ toVals (removeNode
                    (Node.node (Node.node ll lv lr) v (Node.node rl rv rr))) := hy
                rw [removeNode_toVals] at hrn
                simp only [toVals, List.mem_append, List.mem_cons] at hrn ⊢
                rcases hrn with h | h
                · exact Or.inl h
                · exact Or.inr (Or.inr h)

theorem insertLoop_spec {V : Type} [LinearOrder V] :
    ∀ (fuel : Nat) (item : InterfaceImpl V) (t : Node V), item.comp = cmpOf →
      isBST t → AllCmp t →
      isBST (insertLoop fuel item t) ∧ AllCmp (insertLoop fuel item t) := by
  intro fuel
  induction fuel with
  | zero => intro item t _ hb hc; exact ⟨hb, hc⟩
  | succ fuel ih =>
    intro item t hi hb hc
    obtain ⟨ib, ic, ire, _⟩ := insertStep_spec hi t hb hc
    simp only [insertLoop]
    rcases hstep : insertStep item t with ⟨t', re⟩
    rw [hstep] at ib ic ire
    cases re with
    | none => exact ⟨ib, ic⟩
    | some j => exact ih j t' (ire j rfl) ib ic

theorem Insert_spec {V : Type} [LinearOrder V] {item : InterfaceImpl V} {t : Node V}
    (hi : item.comp = cmpOf) (hb : isBST t) (hc : AllCmp t) :
    isBST (Insert item t) ∧ AllCmp (Insert item t) :=
  insertLoop_spec (size t + 1) item t hi hb hc

/-! ### Sequences of tree operations -/

/-- A mutation of the tree through its public interface. -/
inductive Op (V : Type) where
  | ins (item : InterfaceImpl V) : Op V
  | rem (item : InterfaceImpl V) : Op V

/-- The interface value carried by an operation. -/
def opImpl {V : Type} : Op V → InterfaceImpl V
  | .ins i => i
  | .rem i => i

/-- Apply a sequence of Insert/Remove operations. -/
def applyOps {V : Type} : List (Op V) → Node V → Node V
  | [], t => t
  | .ins i :: ops, t => applyOps ops (Insert i t)
  | .rem i :: ops, t => applyOps ops (Remove i t)

theorem applyOps_spec {V : Type} [LinearOrder V] :
    ∀ (ops : List (Op V)) (t : Node V),
      (∀ op ∈ ops, (opImpl op).comp = cmpOf) → isBST t → AllCmp t →
      isBST (applyOps ops t) ∧ AllCmp (applyOps ops t) := by
  intro ops
  induction ops with
  | nil => intro t _ hb hc; exact ⟨hb, hc⟩
  | cons op ops ih =>
    intro t h hb hc
    have hop : (opImpl op).comp = cmpOf := h op (List.mem_cons_self _ _)
    have hops : ∀ op ∈ ops, (opImpl op).comp = cmpOf :=
      fun o ho => h o (List.mem_cons_of_mem _ ho)
    cases op with
    | ins i =>
      obtain ⟨hb', hc'⟩ := Insert_spec hop hb hc
      exact ih (Insert i t) hops hb' hc'
    | rem i =>
      exact ih (Remove i t) hops (Remove_isBST i t hb) (Remove_AllCmp i t hc)

theorem toVals_eq_map {V : Type} :
    ∀ t : Node V, toVals t = (inorderImpls t).map (fun i => i.value) := by
  intro t
  induction t with
  | nil => rfl
  | node l v r ihl ihr => simp [toVals, inorderImpls, ihl, ihr]

theorem AllCmp_mem {V : Type} [LinearOrder V] :
    ∀ t : Node V, AllCmp t → ∀ i ∈ inorderImpls t, i.comp = cmpOf := by
  intro t
  induction t with
  | nil => intro _ i hi; simp [inorderImpls] at hi
  | node l v r ihl ihr =>
    rintro ⟨hcl, hcv, hcr⟩ i hi
    simp only [inorderImpls, List.mem_append, List.mem_cons] at hi
    rcases hi with hi | hi | hi
    · exact ihl hcl i hi
    · exact hi ▸ hcv
    · exact ihr hcr i hi

/-! ### Replacing the stored interfaces without touching the raw values -/

/-- Apply a function to every stored interface. -/
def mapImpls {V : Type} (f : InterfaceImpl V → InterfaceImpl V) : Node V → Node V
  | .nil => .nil
  | .node l v r => .node (mapImpls f l) (f v) (mapImpls f r)

theorem Contains_map {V : Type} {f : InterfaceImpl V → InterfaceImpl V}
    (hf : ∀ i, (f i).value = i.value) {item item' : InterfaceImpl V}
    (hp : ∀ x, item'.Compare x = item.Compare x) :
    ∀ t : Node V, Contains item' (mapImpls f t) = Contains item t := by
  intro t
  induction t with
  | nil => rfl
  | node l v r ihl ihr =>
    simp only [mapImpls, Contains, hf, hp, ihl, ihr]

theorem find_map {V : Type} {f : InterfaceImpl V → InterfaceImpl V}
    (hf : ∀ i, (f i).value = i.value) {item item' : InterfaceImpl V}
    (hp : ∀ x, item'.Compare x = item.Compare x) :
    ∀ (t : Node V) (p : Option (InterfaceImpl V)),
      findNodeAndParent item' (mapImpls f t) (p.map f) =
        ((findNodeAndParent item t p).1,
         (findNodeAndParent item t p).2.1.map f,
         (findNodeAndParent item t p).2.2.map f) := by
  intro t
  induction t with
  | nil => intro p; rfl
  | node l v r ihl ihr =>
    intro p
    simp only [mapImpls, findNodeAndParent, hf, hp]
    split
    · have h := ihl (some v)
      simpa using h
    · split
      · have h := ihr (some v)
        simpa using h
      · rfl

theorem Get_map {V : Type} {f : InterfaceImpl V → InterfaceImpl V}
    (hf : ∀ i, (f i).value = i.value) {item item' : InterfaceImpl V}
    (hp : ∀ x, item'.Compare x = item.Compare x) (t : Node V) :
    Get item' (mapImpls f t) = Get item t := by
  unfold Get
  have h := find_map hf hp t none
  simp only [Option.map_none'] at h
  rw [h]
  rcases findNodeAndParent item t none with ⟨fd, nd, pr⟩
  cases fd <;> cases nd <;> simp [hf]

/-! ### Sign normalisation of every comparator -/

/-- Replace an interface's comparison function by its sign-normalised
version (returning only -1, 0, 1 with the same sign classes). -/
def normImpl {V : Type} (i : InterfaceImpl V) : InterfaceImpl V :=
  ⟨i.value, fun a b => signNorm (i.comp a b), i.upd⟩

/-- Sign-normalise every stored comparator of a tree. -/
def normTree {V : Type} : Node V → Node V :=
  mapImpls normImpl

theorem normImpl_value {V : Type} (i : InterfaceImpl V) : (normImpl i).value = i.value :=
  rfl

theorem Compare_normImpl {V : Type} (i : InterfaceImpl V) (x : V) :
    (normImpl i).Compare x = i.Compare x := by
  unfold InterfaceImpl.Compare normImpl
  exact signNorm_signNorm _

theorem Update_normImpl {V : Type} (i : InterfaceImpl V) (w : V) :
    (normImpl i).Update w = normImpl (i.Update w) := by
  rcases h : i.upd with _ | u
  · simp [InterfaceImpl.Update, normImpl, h]
  · simp [InterfaceImpl.Update, normImpl, h]

theorem spliceLeftmost_norm {V : Type} :
    ∀ (l : Node V) (v : InterfaceImpl V) (r : Node V),
      spliceLeftmost (mapImpls normImpl l) (normImpl v) (mapImpls normImpl r) =
        (normImpl (spliceLeftmost l v r).1, mapImpls normImpl (spliceLeftmost l v r).2) := by
  intro l
  induction l with
  | nil => intro v r; rfl
  | node ll lv lr ihl ihr =>
    intro v r
    simp only [mapImpls, spliceLeftmost, ihl]

theorem removeNode_norm {V : Type} :
    ∀ t : Node V, removeNode (mapImpls normImpl t) = mapImpls normImpl (removeNode t) := by
  intro t
  cases t with
  | nil => rfl
  | node l v r =>
    cases l with
    | nil => cases r <;> rfl
    | node ll lv lr =>
      cases r with
      | nil => rfl
      | node rl rv rr =>
        simp only [mapImpls, removeNode, spliceLeftmost_norm]

theorem Remove_norm {V : Type} (item : InterfaceImpl V) :
    ∀ t : Node V, Remove (normImpl item) (mapImpls normImpl t) = mapImpls normImpl (Remove item t) := by
  intro t
  induction t with
  | nil => rfl
  | node l v r ihl ihr =>
    simp only [mapImpls, Remove, Compare_normImpl, normImpl_value]
    split
    · simp only [mapImpls, ihl]
    · split
      · simp only [mapImpls, ihr]
      · have h := removeNode_norm (Node.node l v r)
        simpa [mapImpls] using h

theorem insertStep_norm {V : Type} (item : InterfaceImpl V) :
    ∀ t : Node V, insertStep (normImpl item) (mapImpls normImpl t) =
      (mapImpls normImpl (insertStep item t).1, (insertStep item t).2.map normImpl) := by
  intro t
  induction t with
  | nil => rfl
  | node l v r ihl ihr =>
    simp only [mapImpls, insertStep, Compare_normImpl, normImpl_value]
    split
    · simp only [ihl, mapImpls]
    · split
      · simp only [ihr, mapImpls]
      · have hu : (normImpl v).Update item.value = normImpl (v.Update item.value) :=
          Update_normImpl v item.value
        have hnc : nodeCompare ((normImpl v).Update item.value) v.value =
            nodeCompare (v.Update item.value) v.value := by
          rw [hu]
          show signNorm ((normImpl (v.Update item.value)).Compare v.value) = _
          rw [Compare_normImpl]
          rfl
        rw [hnc]
        split
        · cases l with
          | nil =>
            cases r with
            | nil => simp [mapImpls, hu]
            | node rl rv rr => simp [mapImpls, hu]
          | node ll lv lr =>
            cases r with
            | nil => simp [mapImpls, hu]
            | node rl rv rr =>
              simp [mapImpls, hu, spliceLeftmost_norm]
        · simp [mapImpls, hu]

theorem size_mapImpls {V : Type} (f : InterfaceImpl V → InterfaceImpl V) :
    ∀ t : Node V, size (mapImpls f t) = size t := by
  intro t
  induction t with
  | nil => rfl
  | node l v r ihl ihr => simp [mapImpls, size, ihl, ihr]

theorem insertLoop_norm {V : Type} :
    ∀ (fuel : Nat) (item : InterfaceImpl V) (t : Node V),
      insertLoop fuel (normImpl item) (mapImpls normImpl t) =
        mapImpls normImpl (insertLoop fuel item t) := by
  intro fuel
  induction fuel with
  | zero => intro item t; rfl
  | succ fuel ih =>
    intro item t
    simp only [insertLoop, insertStep_norm]
    rcases insertStep item t with ⟨t', re⟩
    cases re with
    | none => rfl
    | some j => exact ih j t'

theorem Insert_norm {V : Type} (item : InterfaceImpl V) (t : Node V) :
    Insert (normImpl item) (mapImpls normImpl t) = mapImpls normImpl (Insert item t) := by
  unfold Insert
  rw [size_mapImpls, insertLoop_norm]

/-- The value at the leftmost node of the non-empty subtree given as left
child `l` and node value `v`: walk left children to the end. -/
def leftmostVal {V : Type} : Node V → InterfaceImpl V → V
  | .nil, v => v.value
  | .node ll lv _, _ => leftmostVal ll lv

theorem spliceLeftmost_val {V : Type} :
    ∀ (l : Node V) (v : InterfaceImpl V) (r : Node V),
      (spliceLeftmost l v r).1.value = leftmostVal l v := by
  intro l
  induction l with
  | nil => intro v r; rfl
  | node ll lv lr ihl ihr =>
    intro v r
    simp only [spliceLeftmost, leftmostVal]
    exact ihl lv lr

/-! ### Concrete fixtures used by witnesses and counterexamples -/

/-- An integer item with the order-induced comparator and no updater. -/
def intImpl (n : Int) : InterfaceImpl Int := ⟨n, cmpOf, none⟩

/-- An integer item whose updater turns a stored 2 into 5 and leaves every
other stored value unchanged. -/
def intImplU (n : Int) : InterfaceImpl Int :=
  ⟨n, cmpOf, some (fun old _ => if old = 2 then 5 else old)⟩

/-- An item whose comparison function answers a positive number (`GT`)
against every probe: a value contract not induced by any order. -/
def badImpl : InterfaceImpl Int := ⟨0, fun _ _ => 1, none⟩

/-- A probe whose comparison function always answers `EQ`. -/
def probeEQ : InterfaceImpl Int := ⟨0, fun _ _ => 0, none⟩

/-- A stored item whose comparison function always answers `GT`. -/
def nodeGT : InterfaceImpl Int := ⟨0, fun _ _ => 1, none⟩

/-- Replace a stored interface's comparator by one that always answers
`EQ`, keeping the raw value. -/
def constEqImpl : InterfaceImpl Int → InterfaceImpl Int :=
  fun i => ⟨i.value, fun _ _ => 0, none⟩

/-- An integer item comparing by subtraction, like the source's `Int`
wrapper: the raw difference, not just -1/0/1. -/
def diffImpl (n : Int) : InterfaceImpl Int := ⟨n, fun a b => a - b, none⟩

/-- A visitor that answers `Done` on every invocation. -/
def doneVisitor : Unit → Int → Unit × Bool := fun s _ => (s, true)

/-- The tree holding 1, 2, 3 with 2 at the root. -/
def treeC2 : Node Int :=
  Node.node (Node.node Node.nil (intImpl 1) Node.nil) (intImpl 2)
    (Node.node Node.nil (intImpl 3) Node.nil)

/-- The tree built by inserting 2, 1, 3 with the 2-to-5 updater. -/
def treeC3 : Node Int :=
  Insert (intImplU 3) (Insert (intImplU 1) (Insert (intImplU 2) Node.nil))

/-- The right chain built by inserting 2, 3, 4. -/
def treeC4 : Node Int :=
  Insert (intImpl 4) (Insert (intImpl 3) (Insert (intImpl 2) Node.nil))

/-! ### The search walk as the specification words it -/

/-- Modelled from the spec's wording for claim C5: a search walk whose
direction is decided by invoking the visited node's own compare method
against the probe (the node answering `GT` means the probe is less, so go
left; `LT` means the probe is greater, so go right; `EQ` stops).  Stated
for comparison with `Contains`, which the source directs by the probe's
compare instead. -/
def ContainsNodeCmp {V : Type} (item : InterfaceImpl V) : Node V → Bool
  | .nil => false
  | .node l v r =>
    let result := v.Compare item.value
    if 0 < result then ContainsNodeCmp item l
    else if result < 0 then ContainsNodeCmp item r
    else true

/-! ### The claims -/

/-- C1 (amended): for trees built from the empty tree by any sequence of
Insert and Remove operations whose value contracts all use the comparator
induced by one linear order, `VisitInOrder` visits the stored values in
non-decreasing order per the stored comparator (each visited interface
compares at most `EQ` against the next visited value).  The amendment adds
the consistency requirement on the comparators; `claim_C1_counterexample`
shows the claim fails for arbitrary value-contract implementations. -/
theorem claim_C1 {V : Type} [LinearOrder V] (ops : List (Op V))
    (h : ∀ op ∈ ops, (opImpl op).comp = cmpOf) :
    (inorderVisited (applyOps ops Node.nil)).Sorted (· ≤ ·) ∧
    List.Pairwise (fun i j : InterfaceImpl V => i.Compare j.value ≤ 0)
      (inorderImpls (applyOps ops Node.nil)) := by
  obtain ⟨hb, hc⟩ := applyOps_spec ops Node.nil h trivial trivial
  have hs := sorted_toVals _ hb
  constructor
  · rw [inorderVisited_eq_toVals]
    exact List.Pairwise.imp (fun hab => le_of_lt hab) hs
  · rw [toVals_eq_map] at hs
    have hp := List.pairwise_map.mp hs
    refine hp.imp_of_mem ?_
    intro i j hi hj hlt
    rw [Compare_cmpOf (AllCmp_mem _ hc i hi)]
    have hneg : cmpOf i.value j.value < 0 := cmpOf_neg_iff.2 hlt
    omega

/-- The sequence of operations used to witness C1. -/
def opsC1 : List (Op Int) :=
  [Op.ins (intImpl 2), Op.ins (intImpl 1), Op.ins (intImpl 3), Op.rem (intImpl 2)]

/-- Witness for C1 at a concrete operation sequence. -/
theorem claim_C1_witness :
    (∀ op ∈ opsC1, (opImpl op).comp = cmpOf) ∧
    (inorderVisited (applyOps opsC1 Node.nil)).Sorted (· ≤ ·) ∧
    List.Pairwise (fun i j : InterfaceImpl Int => i.Compare j.value ≤ 0)
      (inorderImpls (applyOps opsC1 Node.nil)) := by
  have h : ∀ op ∈ opsC1, (opImpl op).comp = cmpOf := by
    intro op hop
    fin_cases hop <;> rfl
  exact ⟨h, claim_C1 opsC1 h⟩

/-- Counterexample to C1 as stated: with value contracts whose comparator
always answers `GT` (no order induces it), two Inserts already produce an
in-order sequence that is not non-decreasing per the stored comparator. -/
theorem claim_C1_counterexample :
    ¬ List.Pairwise (fun i j : InterfaceImpl Int => i.Compare j.value ≤ 0)
      (inorderImpls (Insert badImpl (Insert badImpl Node.nil))) := by
  intro hp
  have h : inorderImpls (Insert badImpl (Insert badImpl Node.nil)) = [badImpl, badImpl] := rfl
  rw [h] at hp
  have h2 := (List.pairwise_cons.1 hp).1 badImpl (List.mem_cons_self _ _)
  simp [InterfaceImpl.Compare, badImpl, signNorm] at h2

/-- C2: on a BST with order-consistent comparators containing `x`, after
`Remove x` the tree no longer contains `x`, every other value previously
present is still present, the in-order traversal remains sorted, and a
removed node with two children is replaced by its in-order successor: the
leftmost value of its right subtree. -/
theorem claim_C2 {V : Type} [LinearOrder V] (t : Node V) (x : InterfaceImpl V)
    (hb : isBST t) (hc : AllCmp t) (hx : x.comp = cmpOf)
    (hmem : Contains x t = true) :
    Contains x (Remove x t) = false ∧
    (∀ y, y ≠ x.value → (y ∈ toVals (Remove x t) ↔ y ∈ toVals t)) ∧
    (inorderVisited (Remove x t)).Sorted (· ≤ ·) ∧
    (∀ (ll : Node V) (lv : InterfaceImpl V) (lr : Node V) (v : InterfaceImpl V)
        (rl : Node V) (rv : InterfaceImpl V) (rr : Node V),
      removeNode (Node.node (Node.node ll lv lr) v (Node.node rl rv rr)) =
        Node.node (Node.node ll lv lr) (spliceLeftmost rl rv rr).1
          (spliceLeftmost rl rv rr).2 ∧
      (spliceLeftmost rl rv rr).1.value = leftmostVal rl rv) := by
  refine ⟨?_, Remove_mem_iff hx t hb, ?_, ?_⟩
  · have h1 : ¬ (Contains x (Remove x t) = true) := by
      rw [Contains_iff_mem hx _ (Remove_isBST x t hb)]
      exact Remove_not_mem hx t hb
    cases hcb : Contains x (Remove x t) with
    | false => rfl
    | true => exact absurd hcb h1
  · rw [inorderVisited_eq_toVals]
    exact List.Pairwise.imp (fun hab => le_of_lt hab)
      (sorted_toVals _ (Remove_isBST x t hb))
  · intro ll lv lr v rl rv rr
    exact ⟨rfl, spliceLeftmost_val rl rv rr⟩

/-- Witness for C2 on the tree holding 1, 2, 3, removing 2. -/
theorem claim_C2_witness :
    isBST treeC2 ∧ AllCmp treeC2 ∧ (intImpl 2).comp = cmpOf ∧
    Contains (intImpl 2) treeC2 = true ∧
    (Contains (intImpl 2) (Remove (intImpl 2) treeC2) = false ∧
     (∀ y, y ≠ (intImpl 2).value →
        (y ∈ toVals (Remove (intImpl 2) treeC2) ↔ y ∈ toVals treeC2)) ∧
     (inorderVisited (Remove (intImpl 2) treeC2)).Sorted (· ≤ ·) ∧
     (∀ (ll : Node Int) (lv : InterfaceImpl Int) (lr : Node Int) (v : InterfaceImpl Int)
         (rl : Node Int) (rv : InterfaceImpl Int) (rr : Node Int),
       removeNode (Node.node (Node.node ll lv lr) v (Node.node rl rv rr)) =
         Node.node (Node.node ll lv lr) (spliceLeftmost rl rv rr).1
           (spliceLeftmost rl rv rr).2 ∧
       (spliceLeftmost rl rv rr).1.value = leftmostVal rl rv)) := by
  have h1 : isBST treeC2 := by
    refine ⟨⟨trivial, trivial, trivial, trivial⟩, ⟨trivial, trivial, trivial, trivial⟩, ?_, ?_⟩
    · exact ⟨trivial, by norm_num [intImpl], trivial⟩
    · exact ⟨trivial, by norm_num [intImpl], trivial⟩
  have h2 : AllCmp treeC2 := ⟨⟨trivial, rfl, trivial⟩, rfl, ⟨trivial, rfl, trivial⟩⟩
  have h4 : Contains (intImpl 2) treeC2 = true := by decide
  exact ⟨h1, h2, rfl, h4, claim_C2 treeC2 (intImpl 2) h1 h2 rfl h4⟩

/-- C3: evaluation of `Insert` at the failing input.  On the tree holding
1, 2, 3 (2 at the root, with two children), inserting a duplicate of 2
whose update changes the stored 2 into 5 does not leave the traversal
reflecting 5 at its ordering-consistent position: the updated value 5 is
lost entirely (the successor's value overwrites it inside `removeNode` and
only the successor is re-inserted), and the tree shrinks to 1, 3. -/
theorem claim_C3 :
    inorderVisited treeC3 = [1, 2, 3] ∧
    inorderVisited (Insert (intImplU 2) treeC3) = [1, 3] ∧
    Contains (intImpl 5) (Insert (intImplU 2) treeC3) = false := by
  refine ⟨?_, ?_, ?_⟩ <;> decide

/-- C4: evaluation of the traversals at the failing input.  On the right
chain 2, 3, 4, `VisitInReverse` visits 3, 4, 2 — not the descending order
4, 3, 2 and not the reverse of `VisitInOrder`'s sequence — because the
source's `visitInReverse` recurses into both subtrees with `visitInOrder`. -/
theorem claim_C4 :
    inorderVisited treeC4 = [2, 3, 4] ∧
    reverseVisited treeC4 = [3, 4, 2] ∧
    reverseVisited treeC4 ≠ (inorderVisited treeC4).reverse := by
  refine ⟨?_, ?_, ?_⟩ <;> decide

/-- C5 (amended): the search operations (`Contains`, `Get`, and the
internal `findNodeAndParent` used by Insert and Remove) decide direction by
invoking the probe's compare method against each visited node's stored
value — left when the probe compares less than the node, right when
greater, stopping on equality — and therefore do not depend on the visited
nodes' own compare methods at all: replacing every stored comparator
(keeping the raw values) changes no search result.  The amendment swaps
whose compare is invoked; `claim_C5_counterexample` shows the claim as
stated (the node's own compare decides) fails. -/
theorem claim_C5 {V : Type} (f : InterfaceImpl V → InterfaceImpl V)
    (hf : ∀ i, (f i).value = i.value) (item : InterfaceImpl V) (t : Node V)
    (p : Option (InterfaceImpl V)) :
    Contains item (mapImpls f t) = Contains item t ∧
    Get item (mapImpls f t) = Get item t ∧
    (findNodeAndParent item (mapImpls f t) (p.map f)).1 =
      (findNodeAndParent item t p).1 ∧
    (∀ (l : Node V) (v : InterfaceImpl V) (r : Node V),
      Contains item (Node.node l v r) =
        if item.Compare v.value < 0 then Contains item l
        else if 0 < item.Compare v.value then Contains item r
        else true) := by
  refine ⟨Contains_map hf (fun _ => rfl) t, Get_map hf (fun _ => rfl) t, ?_, ?_⟩
  · rw [find_map hf (fun _ => rfl) t p]
  · intro l v r
    rfl

/-- Witness for C5: replacing the only node's comparator by an always-EQ
one changes no search result on a concrete tree. -/
theorem claim_C5_witness :
    (∀ i, (constEqImpl i).value = i.value) ∧
    (Contains (intImpl 7) (mapImpls constEqImpl (Node.node Node.nil (intImpl 1) Node.nil)) =
      Contains (intImpl 7) (Node.node Node.nil (intImpl 1) Node.nil) ∧
     Get (intImpl 7) (mapImpls constEqImpl (Node.node Node.nil (intImpl 1) Node.nil)) =
      Get (intImpl 7) (Node.node Node.nil (intImpl 1) Node.nil) ∧
     (findNodeAndParent (intImpl 7) (mapImpls constEqImpl (Node.node Node.nil (intImpl 1) Node.nil))
        (Option.map constEqImpl none)).1 =
      (findNodeAndParent (intImpl 7) (Node.node Node.nil (intImpl 1) Node.nil) none).1 ∧
     (∀ (l : Node Int) (v : InterfaceImpl Int) (r : Node Int),
       Contains (intImpl 7) (Node.node l v r) =
         if (intImpl 7).Compare v.value < 0 then Contains (intImpl 7) l
         else if 0 < (intImpl 7).Compare v.value then Contains (intImpl 7) r
         else true)) :=
  ⟨fun _ => rfl,
   claim_C5 constEqImpl (fun _ => rfl) (intImpl 7) (Node.node Node.nil (intImpl 1) Node.nil) none⟩

/-- Counterexample to C5 as stated: on a single-node tree whose stored
comparator always answers `GT` while the probe's comparator always answers
`EQ`, the source's `Contains` (directed by the probe's compare) finds the
node, while the walk directed by the node's own compare (as the claim
words it) misses it. -/
theorem claim_C5_counterexample :
    Contains probeEQ (Node.node Node.nil nodeGT Node.nil) = true ∧
    ContainsNodeCmp probeEQ (Node.node Node.nil nodeGT Node.nil) = false := by
  refine ⟨?_, ?_⟩ <;> decide

/-- C6: every tree operation depends only on the sign class of the
comparator results: sign-normalising the probe's and every stored
comparator (to return exactly -1, 0, 1) changes no result of `Contains` or
`Get` and produces the identical tree under `Remove` and `Insert`; in
particular `Insert` attaches the new node as a left child whenever the raw
comparator result is any negative number. -/
theorem claim_C6 {V : Type} (item : InterfaceImpl V) (t : Node V) :
    Contains (normImpl item) (normTree t) = Contains item t ∧
    Get (normImpl item) (normTree t) = Get item t ∧
    Remove (normImpl item) (normTree t) = normTree (Remove item t) ∧
    Insert (normImpl item) (normTree t) = normTree (Insert item t) ∧
    (∀ (i v : InterfaceImpl V), i.comp i.value v.value < 0 →
      Insert i (Node.node Node.nil v Node.nil) =
        Node.node (Node.node Node.nil i Node.nil) v Node.nil) := by
  refine ⟨@Contains_map V normImpl (fun _ => rfl) item (normImpl item) (Compare_normImpl item) t,
    @Get_map V normImpl (fun _ => rfl) item (normImpl item) (Compare_normImpl item) t,
    Remove_norm item t, Insert_norm item t, ?_⟩
  intro i v h
  show insertLoop 2 i (Node.node Node.nil v Node.nil) = _
  simp only [insertLoop, insertStep, InterfaceImpl.Compare, signNorm_neg h]
  norm_num

/-- Witness for C6: a subtraction-based comparator (raw magnitudes) at a
concrete probe and tree, including a left attach from the raw result -2. -/
theorem claim_C6_witness :
    (diffImpl 7).comp (diffImpl 7).value (diffImpl 9).value < 0 ∧
    Contains (normImpl (diffImpl 7)) (normTree (Node.node Node.nil (diffImpl 9) Node.nil)) =
      Contains (diffImpl 7) (Node.node Node.nil (diffImpl 9) Node.nil) ∧
    Insert (diffImpl 7) (Node.node Node.nil (diffImpl 9) Node.nil) =
      Node.node (Node.node Node.nil (diffImpl 7) Node.nil) (diffImpl 9) Node.nil := by
  refine ⟨by norm_num [diffImpl], ?_, ?_⟩
  · exact (claim_C6 (diffImpl 7) (Node.node Node.nil (diffImpl 9) Node.nil)).1
  · exact (claim_C6 (diffImpl 7) (Node.node Node.nil (diffImpl 9) Node.nil)).2.2.2.2
      (diffImpl 7) (diffImpl 9) (by norm_num [diffImpl])

/-- C7: on every non-empty tree, a visitor that returns `Done` on its
first invocation is invoked exactly once, by both `VisitInOrder` and
`VisitInReverse`: the instrumented invocation counter ends at 1. -/
theorem claim_C7 {σ V : Type} (g : σ → V → σ × Bool)
    (hg : ∀ s v, (g s v).2 = true) (t : Node V) (ht : t ≠ Node.nil) (s0 : σ) :
    (visitInOrder (instr g) t (s0, 0)).1.2 = 1 ∧
    (visitInReverse (instr g) t (s0, 0)).1.2 = 1 := by
  obtain ⟨s1, h1⟩ := visitInOrder_done hg t ht s0 0
  obtain ⟨s2, h2⟩ := visitInReverse_done hg t ht s0 0
  rw [h1, h2]
  exact ⟨rfl, rfl⟩

/-- Witness for C7 on a concrete three-node tree and an always-Done
visitor. -/
theorem claim_C7_witness :
    (∀ (s : Unit) (v : Int), (doneVisitor s v).2 = true) ∧
    treeC4 ≠ Node.nil ∧
    (visitInOrder (instr doneVisitor) treeC4 ((), 0)).1.2 = 1 ∧
    (visitInReverse (instr doneVisitor) treeC4 ((), 0)).1.2 = 1 := by
  have hne : treeC4 ≠ Node.nil := by
    intro h
    exact Node.noConfusion h
  exact ⟨fun _ _ => rfl, hne, claim_C7 doneVisitor (fun _ _ => rfl) treeC4 hne ()⟩

/-- C8: for a probe the locate walk does not find (including in the empty
tree), no operation fails: `Contains` returns false, `Get` returns absent,
and `Remove` returns the tree unchanged. -/
theorem claim_C8 {V : Type} (item : InterfaceImpl V) (t : Node V)
    (h : (findNodeAndParent item t none).1 = false) :
    Contains item t = false ∧ Get item t = none ∧ Remove item t = t := by
  have hc : Contains item t = false := by
    rw [← findNodeAndParent_found_eq_Contains item t none]
    exact h
  exact ⟨hc, Contains_false_Get item t hc, Contains_false_Remove item t hc⟩

/-- Witness for C8: the probe 5 is absent from the single-node tree
holding 1. -/
theorem claim_C8_witness :
    (findNodeAndParent (intImpl 5) (Node.node Node.nil (intImpl 1) Node.nil) none).1 = false ∧
    (Contains (intImpl 5) (Node.node Node.nil (intImpl 1) Node.nil) = false ∧
     Get (intImpl 5) (Node.node Node.nil (intImpl 1) Node.nil) = none ∧
     Remove (intImpl 5) (Node.node Node.nil (intImpl 1) Node.nil) =
       Node.node Node.nil (intImpl 1) Node.nil) := by
  have h : (findNodeAndParent (intImpl 5) (Node.node Node.nil (intImpl 1) Node.nil) none).1 =
      false := by decide
  exact ⟨h, claim_C8 (intImpl 5) (Node.node Node.nil (intImpl 1) Node.nil) h⟩

/-- C9: constructing a `Generic` value-contract wrapper without a
comparison function fails (panics, modelled as `none`) for every value and
every possibly-absent updater; with a comparer present, construction
succeeds even when the updater is absent. -/
theorem claim_C9 {V : Type} :
    (∀ (v : V) (u : Option (V → V → V)), Generic v none u = none) ∧
    (∀ (v : V) (c : V → V → Int) (u : Option (V → V → V)),
      (Generic v (some c) u).isSome = true) :=
  ⟨fun _ _ => rfl, fun _ _ _ => rfl⟩

/-- C10: `Contains` answers true exactly when `Get` locates a matching
node and returns its stored value (a present result). -/
theorem claim_C10 {V : Type} (item : InterfaceImpl V) (t : Node V) :
    Contains item t = true ↔ (Get item t).isSome = true := by
  rw [← findNodeAndParent_found_eq_Contains item t none]
  unfold Get
  rcases h : findNodeAndParent item t none with ⟨fd, nd, pr⟩
  cases fd with
  | false =>
    cases nd <;> simp
  | true =>
    have hs := findNodeAndParent_found_isSome item t none
    rw [h] at hs
    have hnd : nd.isSome = true := hs rfl
    cases nd with
    | none => simp at hnd
    | some i => simp

end Binary
